import Mathlib

/-!
Verification of the extraction-and-deduplication pipeline of a GitHub/Upwork
email-scraper repository.  The JavaScript sources (`index.js`,
`upwork-scraper.js`, `puppeteer-scraper.js`) are shallowly embedded: strings
become `List Char`, the two global regexes become explicit character-level
matchers with the sticky `lastIndex` state threaded where the source shares
it, JS `Set` becomes an insertion-ordered duplicate-free list, network
lookups become oracle arguments of `Except`-typed data, and `while` loops
become fuel-indexed recursions (`none` = the loop has not finished within
the given fuel).
-/

/-- Character class `[a-zA-Z]`. -/
def isAsciiLetter (c : Char) : Bool :=
  ('a' ≤ c && c ≤ 'z') || ('A' ≤ c && c ≤ 'Z')

/-- Character class `[0-9]`. -/
def isAsciiDigit (c : Char) : Bool :=
  '0' ≤ c && c ≤ '9'

/-- Character class `[a-zA-Z0-9_-]` of the username capture group in
`githubUrlRegex` (upwork-scraper.js line 12). -/
def isUserChar (c : Char) : Bool :=
  isAsciiLetter c || isAsciiDigit c || c = '_' || c = '-'

/-- Local-part class `[a-zA-Z0-9._%+-]` of `emailRegex` (index.js line 16). -/
def isLocalChar (c : Char) : Bool :=
  isAsciiLetter c || isAsciiDigit c || c = '.' || c = '_' || c = '%' || c = '+' || c = '-'

/-- Domain class `[a-zA-Z0-9.-]` of `emailRegex`. -/
def isDomainChar (c : Char) : Bool :=
  isAsciiLetter c || isAsciiDigit c || c = '.' || c = '-'

/-- JS `String.prototype.includes`: does `hay` contain `needle` as a
contiguous substring? -/
def listContains (hay needle : List Char) : Bool :=
  match hay with
  | [] => needle.isEmpty
  | _ :: rest => needle.isPrefixOf hay || listContains rest needle

/-- JS `Set.prototype.add` on an insertion-ordered duplicate-free list:
a member is left in place, a new element is appended. -/
def dedupInsert (s : List (List Char)) (x : List Char) : List (List Char) :=
  if x ∈ s then s else s ++ [x]

/-!
## The GitHub-URL regex

`githubUrlRegex = /https?:\/\/(?:www\.)?github\.com\/([a-zA-Z0-9_-]+)/gi`
(upwork-scraper.js line 12).  `stripLit` consumes a literal given as a list
of (lowercase, uppercase) pairs — the `i` flag on ASCII letters admits
exactly the two case variants; punctuation carries the same character
twice.  The two optional pieces (`s?` and `(?:www\.)?`) are consumed
greedily; this is equivalent to the engine's backtracking because skipping
them can never make the required following literal (`://` resp.
`github.com/`) match where taking them did not.
-/

/-- Consume a case-variant literal from the front of `s`. -/
def stripLit : List (Char × Char) → List Char → Option (List Char)
  | [], s => some s
  | (lo, up) :: lit, c :: s => if c = lo || c = up then stripLit lit s else none
  | _ :: _, [] => none

def httpLit : List (Char × Char) := [('h','H'), ('t','T'), ('t','T'), ('p','P')]

def colonSlashLit : List (Char × Char) := [(':',':'), ('/','/'), ('/','/')]

def wwwLit : List (Char × Char) := [('w','W'), ('w','W'), ('w','W'), ('.','.')]

def githubComLit : List (Char × Char) :=
  [('g','G'), ('i','I'), ('t','T'), ('h','H'), ('u','U'), ('b','B'), ('.','.'),
   ('c','C'), ('o','O'), ('m','M'), ('/','/')]

/-- The optional `s?`: consumed greedily (number of characters consumed,
remaining input). -/
def sOpt : List Char → Nat × List Char
  | c :: rest => if c = 's' || c = 'S' then (1, rest) else (0, c :: rest)
  | [] => (0, [])

/-- The optional `(?:www\.)?`: consumed greedily. -/
def wOpt (r : List Char) : Nat × List Char :=
  match stripLit wwwLit r with
  | some rest => (4, rest)
  | none => (0, r)

/-- Try `githubUrlRegex` anchored at the front of `s`.  On success returns
(length of `match[0]`, the username capture `match[1]`). -/
def matchGithubAt (s : List Char) : Option (Nat × List Char) :=
  match stripLit httpLit s with
  | none => none
  | some r1 =>
    match stripLit colonSlashLit (sOpt r1).2 with
    | none => none
    | some r3 =>
      match stripLit githubComLit (wOpt r3).2 with
      | none => none
      | some r5 =>
        let user := r5.takeWhile isUserChar
        if user.isEmpty then none
        else some (4 + (sOpt r1).1 + 3 + (wOpt r3).1 + 11 + user.length, user)

/-- Leftmost match of `githubUrlRegex` in the suffix that starts the scan;
`pos` names the absolute index of the scan head.  Returns
(match index, match length, username capture). -/
def scanGithub : List Char → Nat → Option (Nat × Nat × List Char)
  | [], _ => none
  | c :: rest, pos =>
    match matchGithubAt (c :: rest) with
    | some (len, u) => some (pos, len, u)
    | none => scanGithub rest (pos + 1)

/-- JS `githubUrlRegex.exec(s)` with the sticky cursor at `lastIndex`:
scan for the leftmost match at or after `lastIndex`. -/
def execGithub (s : List Char) (lastIndex : Nat) : Option (Nat × Nat × List Char) :=
  scanGithub (s.drop lastIndex) lastIndex

/-- `extractGitHubUsername(url)` (upwork-scraper.js lines 19–31), with the
shared regex's `lastIndex` threaded as explicit state.  A missing or empty
`url` returns early leaving the cursor untouched; otherwise the cursor is
reset to 0 before `exec`, which on success leaves it after the match and on
failure resets it to 0 (JS `exec` semantics for a `g` regex). -/
def extractGitHubUsername (url : Option (List Char)) (lastIndex : Nat) :
    Option (List Char) × Nat :=
  match url with
  | none => (none, lastIndex)
  | some u =>
    if u.isEmpty then (none, lastIndex)
    else
      match execGithub u 0 with
      | some (pos, len, user) =>
        if user.isEmpty then (none, pos + len) else (some user, pos + len)
      | none => (none, 0)

/-!
## The email regex

`emailRegex = /[a-zA-Z0-9._%+-]+@[a-zA-Z0-9.-]+\.[a-zA-Z]{2,}/g`
(index.js line 16; the identical literal appears in puppeteer-scraper.js
line 44 inside `extractEmails`).  A match attempt at a position is: the
maximal run of local-part characters (nonempty; it cannot backtrack usefully
because `@` is not a local character), a literal `@`, then the engine
consumes the maximal run `dom` of domain characters and backtracks it one
character at a time looking for the literal dot followed by at least two
letters.  Since `.` and the letters are themselves domain characters, this
is exactly: the largest `k` with `dom[k] = '.'` and `dom[k+1]`, `dom[k+2]`
letters; the final `[a-zA-Z]{2,}` then munches letters maximally. -/

/-- Does index `k` of `dom` carry the literal dot of the pattern with at
least two letters after it? -/
def okDotAt (dom : List Char) (k : Nat) : Bool :=
  (dom.get? k = some '.') &&
    (match dom.get? (k + 1) with | some c => isAsciiLetter c | none => false) &&
    (match dom.get? (k + 2) with | some c => isAsciiLetter c | none => false)

/-- Scan `k = m, m-1, …, 1` for the largest admissible dot position. -/
def goDot (dom : List Char) : Nat → Option Nat
  | 0 => none
  | k + 1 => if okDotAt dom (k + 1) then some (k + 1) else goDot dom k

/-- Largest admissible dot position of the domain run (the backtracking
order of the greedy `[a-zA-Z0-9.-]+`). -/
def findDot (dom : List Char) : Option Nat :=
  goDot dom (dom.length - 3)

/-- Try `emailRegex` anchored at the front of `s`; returns `match[0]`. -/
def matchEmailAt (s : List Char) : Option (List Char) :=
  let loc := s.takeWhile isLocalChar
  if loc.isEmpty then none
  else
    match s.drop loc.length with
    | [] => none
    | c :: rest2 =>
      if c = '@' then
        let dom := rest2.takeWhile isDomainChar
        match findDot dom with
        | none => none
        | some k =>
          let tld := (dom.drop (k + 1)).takeWhile isAsciiLetter
          some (loc ++ '@' :: (dom.take k ++ '.' :: tld))
      else none

/-- All matches of `emailRegex`, with their absolute start positions:
`text.match(emailRegex)` scans left to right, and after a match resumes
immediately after it (non-overlapping).  The recursion is driven by fuel so
that it reduces by computation; every step consumes at least one character,
so fuel `s.length` is always enough (`scanEmails_fuel_irrel` below). -/
def scanEmails : Nat → List Char → Nat → List (Nat × List Char)
  | 0, _, _ => []
  | _ + 1, [], _ => []
  | fuel + 1, c :: rest, pos =>
    match matchEmailAt (c :: rest) with
    | some m => (pos, m) :: scanEmails fuel ((c :: rest).drop m.length) (pos + m.length)
    | none => scanEmails fuel rest (pos + 1)

/-- `extractEmails(text)` / `content.match(emailRegex) || []`
(puppeteer-scraper.js lines 43–46, index.js line 99). -/
def extractEmails (text : List Char) : List (List Char) :=
  (scanEmails text.length text 0).map Prod.snd

/-!
## The index.js harvester

`emailSet` (index.js line 19) is a JS `Set`, modelled as an
insertion-ordered duplicate-free list threaded through each function.
Every network lookup becomes an oracle argument: `Option` for data that may
simply be absent, `Except Unit` for a fetch that the surrounding
`try`/`catch` turns into "no change to the set".
-/

/-- The substring tested by `email.includes('noreply.github.com')`
(index.js lines 174, 212, 217; puppeteer-scraper.js line 279). -/
def noreplyDomain : List Char := "noreply.github.com".data

/-- `checkReadmeForEmails` (index.js lines 88–108): when a README is
present, every regex match is added to `emailSet` — with no no-reply
filter; a missing README (the catch path) leaves the set unchanged. -/
def checkReadmeForEmails (readme : Option (List Char)) (st : List (List Char)) :
    List (List Char) :=
  match readme with
  | none => st
  | some content => (extractEmails content).foldl dedupInsert st

/-- One entry of a user's public event feed, as consumed by
`getUserEvents`: its type tag reduced to "is it a PushEvent", and
`event.payload?.commits?.[0]?.author?.email` flattened to an `Option`. -/
structure EventData where
  isPush : Bool
  commitAuthorEmail : Option (List Char)

/-- `getUserEvents` (index.js lines 162–183): for each PushEvent, the first
commit's author email is added unless it contains the no-reply domain; a
failed fetch leaves the set unchanged. -/
def getUserEvents (events : Except Unit (List EventData)) (st : List (List Char)) :
    List (List Char) :=
  match events with
  | .error _ => st
  | .ok evs =>
    evs.foldl (fun s ev =>
      if ev.isPush then
        match ev.commitAuthorEmail with
        | some email =>
          if listContains email noreplyDomain then s else dedupInsert s email
        | none => s
      else s) st

/-- A user profile as consumed by `getContributorEmails`: the optional
public `email` field and the event feed behind it. -/
structure UserData where
  email : Option (List Char)
  events : Except Unit (List EventData)

/-- `getContributorEmails` (index.js lines 138–156): a public profile email
is added directly — with no no-reply filter — then the event feed is
inspected; a failed profile fetch leaves the set unchanged. -/
def getContributorEmails (user : Except Unit UserData) (st : List (List Char)) :
    List (List Char) :=
  match user with
  | .error _ => st
  | .ok u =>
    let st1 := match u.email with
      | some e => dedupInsert st e
      | none => st
    getUserEvents u.events st1

/-- One commit's detailed record, as consumed by `checkCommits`:
`commitData.author?.email` and `commitData.committer?.email`. -/
structure CommitData where
  authorEmail : Option (List Char)
  committerEmail : Option (List Char)

/-- `checkCommits` (index.js lines 190–225): author and committer emails of
each recent commit are added, each guarded by the no-reply filter; a failed
fetch leaves the set unchanged. -/
def checkCommits (commits : Except Unit (List CommitData)) (st : List (List Char)) :
    List (List Char) :=
  match commits with
  | .error _ => st
  | .ok cs =>
    cs.foldl (fun s c =>
      let s1 := match c.authorEmail with
        | some a => if listContains a noreplyDomain then s else dedupInsert s a
        | none => s
      match c.committerEmail with
      | some b => if listContains b noreplyDomain then s1 else dedupInsert s1 b
      | none => s1) st

/-- All remote data reachable from one repository coordinate:
its README, its top contributors (each lookup fallible), and its recent
commits' detail records. -/
structure RepoData where
  readme : Option (List Char)
  contributors : Except Unit (List (Except Unit UserData))
  commits : Except Unit (List CommitData)

/-- `getContributors` (index.js lines 115–132): each contributor is run
through `getContributorEmails`; a failed listing leaves the set unchanged. -/
def getContributors (contribs : Except Unit (List (Except Unit UserData)))
    (st : List (List Char)) : List (List Char) :=
  match contribs with
  | .error _ => st
  | .ok cs => cs.foldl (fun s u => getContributorEmails u s) st

/-- `processRepository` (index.js lines 68–81): README, then contributors,
then commits. -/
def processRepository (r : RepoData) (st : List (List Char)) : List (List Char) :=
  checkCommits r.commits (getContributors r.contributors (checkReadmeForEmails r.readme st))

/-- All remote data reachable from one GitHub username: the profile lookup
and the listing of the user's repositories. -/
structure GHUserData where
  profile : Except Unit UserData
  repos : Except Unit (List RepoData)

/-- `getUserRepositories` (index.js lines 252–272): each listed repository
is processed; a failed listing leaves the set unchanged. -/
def getUserRepositories (repos : Except Unit (List RepoData)) (st : List (List Char)) :
    List (List Char) :=
  match repos with
  | .error _ => st
  | .ok rs => rs.foldl (fun s r => processRepository r s) st

/-- The `try` body of `processGitHubUser` (index.js lines 231–246): both
awaited calls are functions that catch their own failures, so the body
itself never throws. -/
def processGitHubUserBody (d : GHUserData) (st : List (List Char)) :
    Except Unit (List (List Char)) :=
  .ok (getUserRepositories d.repos (getContributorEmails d.profile st))

/-- `processGitHubUser` (index.js lines 231–246): returns `true` together
with the grown set when the body completes, `false` with the set as it was
if the body threw. -/
def processGitHubUser (d : GHUserData) (st : List (List Char)) :
    Bool × List (List Char) :=
  match processGitHubUserBody d st with
  | .ok st' => (true, st')
  | .error _ => (false, st)

/-- The `successCount` loop of `findEmailsFromUpworkDevelopers`
(index.js lines 305–311), folded over the resolved per-username data. -/
def runUsers (ds : List GHUserData) (acc : Nat × List (List Char)) :
    Nat × List (List Char) :=
  ds.foldl (fun p d =>
    let r := processGitHubUser d p.2
    (p.1 + (if r.1 then 1 else 0), r.2)) acc

/-- `processRepository` over one search page's repositories, in order. -/
def processRepos (repos : List RepoData) (st : List (List Char)) : List (List Char) :=
  repos.foldl (fun s r => processRepository r s) st

/-- `searchJavaScriptRepos` (index.js lines 25–61), driven by a page
oracle: `.ok repos` is a successful search page, `.error status` a thrown
request error carrying its HTTP status.  Returns the final `emailSet` and
the artifact written by `saveEmails`, if any: the non-recursing branch
saves, as does the catch when (and only when) `status === 403`.  The
recursion is fuel-indexed (`none` artifact also when fuel runs out, which
the theorems below never let happen). -/
def searchJavaScriptRepos (pagesF : Nat → Except Nat (List RepoData)) :
    Nat → Nat → List (List Char) → List (List Char) × Option (List (List Char))
  | 0, _, st => (st, none)
  | fuel + 1, page, st =>
    match pagesF page with
    | .error status => if status = 403 then (st, some st) else (st, none)
    | .ok repos =>
      let st' := processRepos repos st
      if 0 < repos.length ∧ page < 100 then
        searchJavaScriptRepos pagesF fuel (page + 1) st'
      else (st', some st')

/-!
## The upwork-scraper.js crawler

`searchUpworkProfiles` fetches one search page, collects the profile links
it shows, scrapes each one, and concatenates the usernames; a caught fetch
failure returns `[]`.  Each page is therefore an oracle value
`Except Unit (List (List (List Char)))`: a list of profiles, each profile
being the username list its scrape produced (a failed profile scrape is
`[]`, its own catch).
-/

/-- The value `searchUpworkProfiles(page)` resolves to
(upwork-scraper.js lines 68–140). -/
def searchUpworkProfilesModel (pages : Nat → Except Unit (List (List (List Char))))
    (page : Nat) : List (List Char) :=
  match pages page with
  | .error _ => []
  | .ok profs => profs.flatten

/-- The `while (continueSearch)` loop of `findGitHubAccountsFromUpwork`
(upwork-scraper.js lines 224–260): stop when the page ceiling is exceeded
(`maxPages > 0 && page > maxPages`) or a page yields zero usernames;
otherwise union the page's usernames into the set and continue.  Fuel
models the unbounded loop; `none` means it did not finish in `fuel`
iterations. -/
def fgLoop (pages : Nat → Except Unit (List (List (List Char)))) (maxPages : Nat) :
    Nat → Nat → List (List Char) → Option (List (List Char))
  | 0, _, _ => none
  | fuel + 1, page, acc =>
    if 0 < maxPages ∧ maxPages < page then some acc
    else
      let us := searchUpworkProfilesModel pages page
      if us.isEmpty then some acc
      else fgLoop pages maxPages fuel (page + 1) (us.foldl dedupInsert acc)

/-- `findGitHubAccountsFromUpwork(maxPages)` (upwork-scraper.js
lines 224–260). -/
def findGitHubAccountsModel (pages : Nat → Except Unit (List (List (List Char))))
    (maxPages fuel : Nat) : Option (List (List Char)) :=
  fgLoop pages maxPages fuel 1 []

/-!
## `scrapeUpworkProfile` (upwork-scraper.js lines 147–217)

The text scan `while ((match = githubUrlRegex.exec(fullText)) !== null)`
and the inner `extractGitHubUsername(match[0])` use the SAME module-level
regex object, so the inner call clobbers the loop's `lastIndex`: after
processing a match it is left at the match's length measured inside
`match[0]` itself, not at its end inside `fullText`.  The model threads
that one shared cursor through both the text scan and the anchor scan.
-/

/-- The text-scan loop, fuel-indexed (`none` = it did not finish).  On a
successful `exec`, `match[0]` is the slice of the text at the match, and
the body hands it to `extractGitHubUsername`, whose returned cursor is what
the next `exec` starts from. -/
def textScan (text : List Char) :
    Nat → Nat → List (List Char) → Option (List (List Char) × Nat)
  | 0, _, _ => none
  | fuel + 1, lastIndex, acc =>
    match execGithub text lastIndex with
    | none => some (acc, 0)
    | some (pos, len, _) =>
      let m := (text.drop pos).take len
      match extractGitHubUsername (some m) (pos + len) with
      | (some user, st') => textScan text fuel st' (dedupInsert acc user)
      | (none, st') => textScan text fuel st' acc

/-- The anchor scan over `.portfolio-item a, .social-link a,
.external-link a` hrefs (upwork-scraper.js lines 203–210), continuing with
the cursor the text scan left behind. -/
def anchorScan : List (Option (List Char)) → Nat → List (List Char) →
    List (List Char) × Nat
  | [], st, acc => (acc, st)
  | href :: rest, st, acc =>
    match extractGitHubUsername href st with
    | (some user, st') => anchorScan rest st' (dedupInsert acc user)
    | (none, st') => anchorScan rest st' acc

/-- `scrapeUpworkProfile` for a fetched page whose concatenated
description/portfolio/experience text is `fullText` and whose selected
anchor hrefs are `hrefs`: text scan, then anchor scan, both feeding the
one `githubUsernames` set, returned as `Array.from` (insertion order). -/
def scrapeUpworkProfileModel (fullText : List Char) (hrefs : List (Option (List Char)))
    (lastIndex fuel : Nat) : Option (List (List Char) × Nat) :=
  match textScan fullText fuel lastIndex [] with
  | none => none
  | some (acc, st1) => some (anchorScan hrefs st1 acc)

/-- The scrape of one profile page diverges: no amount of fuel makes its
text-scan loop finish (started with a fresh cursor, as on module load). -/
def scrapeDiverges (fullText : List Char) (hrefs : List (Option (List Char))) : Prop :=
  ∀ fuel : Nat, scrapeUpworkProfileModel fullText hrefs 0 fuel = none

/-!
## Persistence

`saveEmails` (index.js lines 278–286) writes `JSON.stringify(Array.from(emailSet))`
— an array of bare strings — to its filename argument
(default `javascript-developer-emails.json`); the puppeteer scraper's main
(puppeteer-scraper.js lines 340–344) writes the `{email, source}` records
of `emailData` to `fullstack-developer-emails.json`.  `writeFileSync`
replaces the file, so the file system is a map updated at the name.
-/

/-- An element of a persisted JSON array: a bare string, or an
`{email, source}` record. -/
inductive JVal where
  | jstr (s : List Char)
  | jrec (email source : List Char)
deriving DecidableEq

/-- Is the element an `{email, source}` record? -/
def JVal.isRec : JVal → Bool
  | .jstr _ => false
  | .jrec _ _ => true

/-- The file system: filename → contents of the JSON array, if present. -/
abbrev FileSys : Type := String → Option (List JVal)

/-- `fs.writeFileSync(name, …)`: replace whatever the file held. -/
def writeFile (fs : FileSys) (name : String) (content : List JVal) : FileSys :=
  fun n => if n = name then some content else fs n

/-- `saveEmails(filename)` (index.js lines 278–286). -/
def saveEmails (st : List (List Char)) (filename : String) (fs : FileSys) : FileSys :=
  writeFile fs filename (st.map JVal.jstr)

/-- `findEmailsFromUpworkDevelopers` (index.js lines 292–315) with the
crawl already resolved to `usernames` and the per-username GitHub data
given by `lookup`: clear the set, process every username, save to the
fixed marketplace filename. -/
def findEmailsFromUpworkModel (usernames : List (List Char))
    (lookup : List Char → GHUserData) (fs : FileSys) : FileSys :=
  let r := runUsers (usernames.map lookup) (0, [])
  saveEmails r.2 "fullstack-developer-emails.json" fs

/-- One entry of the puppeteer scraper's `emailData`. -/
structure EmailRecord where
  email : List Char
  source : List Char

/-- The write at the end of the puppeteer scraper's `main`
(puppeteer-scraper.js lines 340–344). -/
def puppeteerSave (emailData : List EmailRecord) (fs : FileSys) : FileSys :=
  writeFile fs "fullstack-developer-emails.json"
    (emailData.map fun r => JVal.jrec r.email r.source)

/-!
## The email shape, in the spec's words

“local part over ASCII letters/digits and `. _ % + -`, domain over
letters/digits/`.`/`-`, final label of at least two letters.”
-/

/-- A string of the `local-part@domain.tld` shape. -/
def EmailShape (m : List Char) : Prop :=
  ∃ l d t : List Char,
    m = l ++ '@' :: (d ++ '.' :: t) ∧
    l ≠ [] ∧ l.all isLocalChar ∧
    d ≠ [] ∧ d.all isDomainChar ∧
    2 ≤ t.length ∧ t.all isAsciiLetter

/-- The concrete page oracle of the C6 witness: page 1 holds one
repository whose README carries three emails, page 2 is rate-limited. -/
def c6Pages : Nat → Except Nat (List RepoData) := fun p =>
  if p = 1 then
    .ok [{ readme := some "a@x.cc b@x.cc c@x.cc".data,
           contributors := .ok [], commits := .ok [] }]
  else .error 403

/-- The GitHub data of the single username in the C7 counterexample run:
a profile whose public email field is set, and nothing else. -/
def c7User : GHUserData :=
  { profile := .ok { email := some "dev@mail.cc".data, events := .ok [] },
    repos := .ok [] }

/-- An initially empty file system. -/
def emptyFs : FileSys := fun _ => none

/-- The README of the C1 counterexample. -/
def c1Readme : List Char := "Maintainer: bot@users.noreply.github.com".data

/-- Replace one page of a page oracle. -/
def updPage (pages : Nat → Except Unit (List (List (List Char)))) (p : Nat)
    (v : Except Unit (List (List (List Char)))) :
    Nat → Except Unit (List (List (List Char))) :=
  fun q => if q = p then v else pages q

/-- The page oracle of the C5 counterexample: page 1 has one profile
yielding `u1`, page 2 has ONE profile link that yields no username, and
page 3 onward would yield `u3`. -/
def c5Pages : Nat → Except Unit (List (List (List Char))) := fun p =>
  if p = 1 then .ok [["u1".data]]
  else if p = 2 then .ok [[]]
  else .ok [["u3".data]]

/-- The page oracle of the C5 witness. -/
def w5Pages : Nat → Except Unit (List (List (List Char))) := fun p =>
  if p = 1 then .ok [["w".data]] else .ok []

/-- A profile text carrying the mock URL at offset 21 — closer to the
front than the 27-character match is long. -/
def mockGoodText : List Char :=
  "Check out my GitHub: https://github.com/mockuser Project 1 experience".data

/-- A profile text carrying the same mock URL at offset 67 — at or beyond
index 27, where the clobbered cursor keeps re-finding it. -/
def mockBadText : List Char :=
  "I am a seasoned developer with many projects. Check out my GitHub: https://github.com/mockuser".data

/-- The portfolio and social anchor hrefs of the mock profile. -/
def mockHrefs : List (Option (List Char)) :=
  [some "https://github.com/mockuser/project1".data,
   some "https://github.com/mockuser2".data]

/-- Does the remainder after the username segment keep the username
capture intact (it must not start with a username character)? -/
def trailOk : List Char → Bool
  | [] => true
  | c :: _ => !isUserChar c

/-- A GitHub profile/repository URL assembled from its parts. -/
def urlOf (sec www : Bool) (user trail : List Char) : List Char :=
  (if sec then "https://".data else "http://".data) ++
    ((if www then "www.".data else []) ++ ("github.com/".data ++ (user ++ trail)))

/-!
## Helper lemmas
-/

example : (extractGitHubUsername (some "https://github.com/johndoe".data) 0).1
    = some "johndoe".data := by decide

example : (extractGitHubUsername (some "http://www.github.com/janedoe/".data) 0).1
    = some "janedoe".data := by decide

example : (extractGitHubUsername (some "github.com/invalid-url".data) 0).1 = none := by
  decide

example : (extractGitHubUsername (some "https://github.com/username/repo/blob/main/README.md".data) 0).1
    = some "username".data := by decide

example : (extractGitHubUsername (some "HTTPS://WWW.GITHUB.COM/AbCd".data) 0).1
    = some "AbCd".data := by decide

/-- Every successful match of `emailRegex` is nonempty (it contains at
least the `@`). -/
theorem matchEmailAt_pos (s m : List Char) (h : matchEmailAt s = some m) :
    0 < m.length := by
  simp only [matchEmailAt] at h
  split at h
  · exact absurd h (by simp)
  · split at h
    · exact absurd h (by simp)
    · split at h
      · split at h
        · exact absurd h (by simp)
        · rw [Option.some_inj] at h
          subst h
          simp
      · exact absurd h (by simp)

/-- Any fuel of at least `s.length` computes the full scan. -/
theorem scanEmails_fuel_irrel :
    ∀ (f g : Nat) (s : List Char) (pos : Nat), s.length ≤ f → s.length ≤ g →
      scanEmails f s pos = scanEmails g s pos := by
  intro f
  induction f with
  | zero =>
    intro g s pos hf _
    interval_cases hs : s.length
    · rw [List.length_eq_zero] at hs
      subst hs
      cases g <;> rfl
  | succ f ih =>
    intro g s pos hf hg
    cases s with
    | nil => cases g <;> rfl
    | cons c rest =>
      cases g with
      | zero => simp at hg
      | succ g =>
        simp only [scanEmails]
        cases hh : matchEmailAt (c :: rest) with
        | none =>
          simp only [List.length_cons] at hf hg
          simpa using ih g rest (pos + 1) (by omega) (by omega)
        | some m =>
          have hm := matchEmailAt_pos _ _ hh
          simp only [List.length_cons] at hf hg
          have hrec := ih g ((c :: rest).drop m.length) (pos + m.length)
            (by simp only [List.length_drop, List.length_cons]; omega)
            (by simp only [List.length_drop, List.length_cons]; omega)
          simpa using hrec

theorem mem_dedupInsert (s : List (List Char)) (x y : List Char)
    (h : y ∈ dedupInsert s x) : y ∈ s ∨ y = x := by
  unfold dedupInsert at h
  split at h
  · exact Or.inl h
  · rcases List.mem_append.mp h with h1 | h1
    · exact Or.inl h1
    · exact Or.inr (List.mem_singleton.mp h1)

/-- Folding a dedup-insert over a step that only ever adds elements
satisfying `P` grows the set only by `P`-elements. -/
theorem foldl_mem_inv {α : Type} (f : List (List Char) → α → List (List Char))
    (P : List Char → Prop)
    (hf : ∀ s x e, e ∈ f s x → e ∈ s ∨ P e) :
    ∀ (l : List α) (st : List (List Char)) (e : List Char),
      e ∈ l.foldl f st → e ∈ st ∨ P e := by
  intro l
  induction l with
  | nil => intro st e h; exact Or.inl h
  | cons x l ih =>
    intro st e h
    rcases ih (f st x) e h with h1 | h1
    · exact hf st x e h1
    · exact Or.inr h1

theorem takeWhile_append_all (p : Char → Bool) (l r : List Char)
    (h : l.all p = true) : (l ++ r).takeWhile p = l ++ r.takeWhile p := by
  induction l with
  | nil => simp
  | cons a l ih =>
    simp only [List.all_cons, Bool.and_eq_true] at h
    simp [List.takeWhile_cons, h.1, ih h.2]

/-!
## Claim theorems
-/

/-- C8: `extractGitHubUsername` is deterministic across call sequences:
its result depends only on its input, never on the match position left by
a previous call (the source resets `lastIndex` to 0 before every `exec`);
in particular the sequence matching URL → non-matching URL → same matching
URL yields username, null, username. -/
theorem c8_stateless :
    (∀ (url : Option (List Char)) (s₁ s₂ : Nat),
      (extractGitHubUsername url s₁).1 = (extractGitHubUsername url s₂).1) ∧
    (∀ st : Nat,
      let r1 := extractGitHubUsername (some "https://github.com/janedoe".data) st
      let r2 := extractGitHubUsername (some "plain text without links".data) r1.2
      let r3 := extractGitHubUsername (some "https://github.com/janedoe".data) r2.2
      r1.1 = some "janedoe".data ∧ r2.1 = none ∧ r3.1 = some "janedoe".data) := by
  constructor
  · intro url s₁ s₂
    cases url with
    | none => rfl
    | some u =>
      by_cases h : u.isEmpty <;> simp [extractGitHubUsername, h]
  · intro st
    exact ⟨rfl, rfl, rfl⟩

/-- C9: the Deduplication Store (`emailSet`, a JS `Set` enumerated in
insertion order): inserting a present identifier leaves the size
unchanged; inserting the same identifier twice grows the size by exactly
one; and after inserting N distinct identifiers the enumeration is exactly
those N identifiers in insertion order. -/
theorem c9_dedup_store :
    (∀ (s : List (List Char)) (x : List Char), x ∈ s →
      (dedupInsert s x).length = s.length) ∧
    (∀ (s : List (List Char)) (x : List Char), x ∉ s →
      (dedupInsert (dedupInsert s x) x).length = s.length + 1) ∧
    (∀ l : List (List Char), l.Nodup → l.foldl dedupInsert [] = l) := by
  refine ⟨?_, ?_, ?_⟩
  · intro s x h
    simp [dedupInsert, h]
  · intro s x h
    simp [dedupInsert, h]
  · have key : ∀ (l acc : List (List Char)), (∀ x ∈ l, x ∉ acc) → l.Nodup →
        l.foldl dedupInsert acc = acc ++ l := by
      intro l
      induction l with
      | nil => intro acc _ _; simp
      | cons x l ih =>
        intro acc hdisj hnd
        have hx : x ∉ acc := hdisj x (List.mem_cons_self x l)
        have hstep : dedupInsert acc x = acc ++ [x] := by simp [dedupInsert, hx]
        rw [List.foldl_cons, hstep,
          ih (acc ++ [x])
            (fun y hy => by
              intro hmem
              rcases List.mem_append.mp hmem with h1 | h1
              · exact hdisj y (List.mem_cons_of_mem x hy) h1
              · rw [List.mem_singleton.mp h1] at hy
                exact (List.nodup_cons.mp hnd).1 hy)
            (List.nodup_cons.mp hnd).2,
          List.append_assoc]
        rfl
    intro l hnd
    simpa using key l [] (by simp) hnd

/-- C10: `processGitHubUser` returns `true` for every input, because both
of its awaited sub-lookups catch their own failures internally, so the
marketplace-mode `successCount` always equals the number of usernames
processed. -/
theorem c10_always_true :
    (∀ (d : GHUserData) (st : List (List Char)), (processGitHubUser d st).1 = true) ∧
    (∀ (ds : List GHUserData) (st : List (List Char)),
      (runUsers ds (0, st)).1 = ds.length) := by
  have h1 : ∀ (d : GHUserData) (st : List (List Char)),
      (processGitHubUser d st).1 = true := fun d st => rfl
  refine ⟨h1, ?_⟩
  have key : ∀ (ds : List GHUserData) (n : Nat) (st : List (List Char)),
      (runUsers ds (n, st)).1 = n + ds.length := by
    intro ds
    induction ds with
    | nil => intro n st; simp [runUsers]
    | cons d ds ih =>
      intro n st
      simp only [runUsers, List.foldl_cons] at ih ⊢
      rw [h1 d st]
      simp only [if_true]
      rw [ih (n + 1) (processGitHubUser d st).2]
      simp [List.length_cons]
      omega
  intro ds st
  simpa using key ds 0 st

/-- Witness for C9 at concrete inputs. -/
theorem c9_witness :
    (dedupInsert ["a".data] "a".data).length = 1 ∧
    (dedupInsert (dedupInsert ["a".data, "b".data] "c".data) "c".data).length = 3 ∧
    ["a".data, "b".data].foldl dedupInsert [] = ["a".data, "b".data] :=
  ⟨c9_dedup_store.1 ["a".data] "a".data (by decide),
   c9_dedup_store.2.1 ["a".data, "b".data] "c".data (by decide),
   c9_dedup_store.2.2 ["a".data, "b".data] (by decide)⟩

/-- C6: in repository-search mode, when the search of the next page throws
a rate-limit error (status 403) after page 1 accumulated its emails, the
run stops and `saveEmails` persists exactly the accumulated set. -/
theorem c6_rate_limit_persists
    (pagesF : Nat → Except Nat (List RepoData)) (repos1 : List RepoData)
    (h1 : pagesF 1 = .ok repos1) (hne : repos1 ≠ []) (h2 : pagesF 2 = .error 403) :
    searchJavaScriptRepos pagesF 2 1 [] =
      (processRepos repos1 [], some (processRepos repos1 [])) := by
  have hlen : 0 < repos1.length := List.length_pos.mpr hne
  simp only [searchJavaScriptRepos, h1]
  rw [if_pos ⟨hlen, by omega⟩]
  simp [searchJavaScriptRepos, h2]

/-- Witness for C6: the run against `c6Pages` persists exactly the three
collected emails. -/
theorem c6_witness :
    searchJavaScriptRepos c6Pages 2 1 [] =
      (["a@x.cc".data, "b@x.cc".data, "c@x.cc".data],
       some ["a@x.cc".data, "b@x.cc".data, "c@x.cc".data]) := by
  have h := c6_rate_limit_persists c6Pages
    [{ readme := some "a@x.cc b@x.cc c@x.cc".data,
       contributors := .ok [], commits := .ok [] }]
    rfl (by simp) rfl
  rw [h]
  decide

/-- C7 counterexample: the index-module marketplace mode
(`findEmailsFromUpworkDevelopers`) writes its fixed file as an array of
BARE email strings, not `{email, source}` records, contradicting the
claim that marketplace-mode elements are records. -/
theorem c7_counterexample :
    findEmailsFromUpworkModel ["u1".data] (fun _ => c7User) emptyFs
        "fullstack-developer-emails.json"
      = some [JVal.jstr "dev@mail.cc".data] ∧
    JVal.isRec (JVal.jstr "dev@mail.cc".data) = false := by
  constructor
  · decide
  · rfl

/-- C7 amended: the persisted artifact is a JSON array written to a fixed
filename, overwriting any prior run's file; repository-search mode
(`saveEmails` to `javascript-developer-emails.json`) and the index-module
marketplace mode (to `fullstack-developer-emails.json`) write bare email
strings, while the standalone puppeteer marketplace scraper writes
`{email, source}` records to `fullstack-developer-emails.json`. -/
theorem c7_amended :
    (∀ (st : List (List Char)) (fs : FileSys),
      saveEmails st "javascript-developer-emails.json" fs
        "javascript-developer-emails.json" = some (st.map JVal.jstr)) ∧
    (∀ (usernames : List (List Char)) (lookup : List Char → GHUserData) (fs : FileSys),
      findEmailsFromUpworkModel usernames lookup fs "fullstack-developer-emails.json"
        = some ((runUsers (usernames.map lookup) (0, [])).2.map JVal.jstr)) ∧
    (∀ (recs : List EmailRecord) (fs : FileSys),
      puppeteerSave recs fs "fullstack-developer-emails.json"
        = some (recs.map fun r => JVal.jrec r.email r.source)) := by
  refine ⟨?_, ?_, ?_⟩
  · intro st fs
    simp [saveEmails, writeFile]
  · intro usernames lookup fs
    simp [findEmailsFromUpworkModel, saveEmails, writeFile]
  · intro recs fs
    simp [puppeteerSave, writeFile]

/-- C1 counterexample: the README extraction path inserts a no-reply email
into the Deduplication Store unfiltered (index.js lines 99–103 apply no
no-reply check), and `saveEmails` then persists it — contradicting the
claim that the filter is applied at insertion for all paths. -/
theorem c1_counterexample :
    checkReadmeForEmails (some c1Readme) [] = ["bot@users.noreply.github.com".data] ∧
    listContains "bot@users.noreply.github.com".data noreplyDomain = true ∧
    getContributorEmails
        (.ok { email := some "bot@users.noreply.github.com".data, events := .ok [] }) []
      = ["bot@users.noreply.github.com".data] ∧
    saveEmails ["bot@users.noreply.github.com".data]
        "javascript-developer-emails.json" emptyFs "javascript-developer-emails.json"
      = some [JVal.jstr "bot@users.noreply.github.com".data] := by
  refine ⟨by decide, by decide, by decide, by decide⟩

/-- C1 amended: the no-reply filter guards insertion only on the
push-event commit-author path and the commit author/committer detail path:
every email those two paths add to the store avoids the no-reply domain
(README-extracted and profile emails are inserted unfiltered, as the
counterexample shows). -/
theorem c1_amended :
    (∀ (events : Except Unit (List EventData)) (st : List (List Char)) (e : List Char),
      e ∈ getUserEvents events st → e ∈ st ∨ listContains e noreplyDomain = false) ∧
    (∀ (commits : Except Unit (List CommitData)) (st : List (List Char)) (e : List Char),
      e ∈ checkCommits commits st → e ∈ st ∨ listContains e noreplyDomain = false) := by
  constructor
  · intro events st e h
    cases events with
    | error _ => exact Or.inl h
    | ok evs =>
      refine foldl_mem_inv _ (fun x => listContains x noreplyDomain = false) ?_ evs st e h
      intro s ev e' he'
      by_cases hp : ev.isPush
      · simp only [getUserEvents, hp, if_true] at he'
        cases hev : ev.commitAuthorEmail with
        | none => rw [hev] at he'; exact Or.inl he'
        | some email =>
          rw [hev] at he'
          have he2 : e' ∈ (if listContains email noreplyDomain then s
              else dedupInsert s email) := he'
          by_cases hf : listContains email noreplyDomain
          · rw [if_pos hf] at he2
            exact Or.inl he2
          · rw [if_neg hf] at he2
            rcases mem_dedupInsert s email e' he2 with h1 | h1
            · exact Or.inl h1
            · subst h1
              exact Or.inr (Bool.eq_false_iff.mpr hf)
      · simp only [hp, if_false] at he'
        exact Or.inl he'
  · intro commits st e h
    cases commits with
    | error _ => exact Or.inl h
    | ok cs =>
      refine foldl_mem_inv _ (fun x => listContains x noreplyDomain = false) ?_ cs st e h
      intro s c e' he'
      have step1 : ∀ (s1 : List (List Char)) (em : Option (List Char)) (e'' : List Char),
          e'' ∈ (match em with
            | some b => if listContains b noreplyDomain then s1 else dedupInsert s1 b
            | none => s1) →
          e'' ∈ s1 ∨ listContains e'' noreplyDomain = false := by
        intro s1 em e'' hm
        cases em with
        | none => exact Or.inl hm
        | some b =>
          have hm2 : e'' ∈ (if listContains b noreplyDomain then s1
              else dedupInsert s1 b) := hm
          by_cases hf : listContains b noreplyDomain
          · rw [if_pos hf] at hm2
            exact Or.inl hm2
          · rw [if_neg hf] at hm2
            rcases mem_dedupInsert s1 b e'' hm2 with h1 | h1
            · exact Or.inl h1
            · subst h1
              exact Or.inr (Bool.eq_false_iff.mpr hf)
      rcases step1 _ c.committerEmail e' he' with h1 | h1
      · rcases step1 s c.authorEmail e' h1 with h2 | h2
        · exact Or.inl h2
        · exact Or.inr h2
      · exact Or.inr h1

/-- Witness for C1's amended theorem at a concrete push event. -/
theorem c1_witness :
    "dev@site.cc".data ∈ ([] : List (List Char)) ∨
      listContains "dev@site.cc".data noreplyDomain = false :=
  c1_amended.1 (.ok [{ isPush := true, commitAuthorEmail := some "dev@site.cc".data }])
    [] "dev@site.cc".data (by decide)

/-- The crawl loop only observes pages through `searchUpworkProfilesModel`. -/
theorem fgLoop_congr (pA pB : Nat → Except Unit (List (List (List Char))))
    (h : ∀ q, searchUpworkProfilesModel pA q = searchUpworkProfilesModel pB q)
    (mp : Nat) :
    ∀ (fuel page : Nat) (acc : List (List Char)),
      fgLoop pA mp fuel page acc = fgLoop pB mp fuel page acc := by
  intro fuel
  induction fuel with
  | zero => intro page acc; rfl
  | succ fuel ih =>
    intro page acc
    simp only [fgLoop, h page]
    by_cases hc : 0 < mp ∧ mp < page
    · rw [if_pos hc, if_pos hc]
    · rw [if_neg hc, if_neg hc]
      by_cases he : (searchUpworkProfilesModel pB page).isEmpty
      · rw [if_pos he, if_pos he]
      · rw [if_neg he, if_neg he]
        exact ih (page + 1) _

/-- C5 counterexample: with no page ceiling, the crawl over `c5Pages`
terminates after page 2 — although page 2 yielded one profile link (not
zero) and no ceiling intervened — because termination is keyed on zero
extracted usernames, not zero profile links; page 3's username is never
collected. -/
theorem c5_counterexample :
    findGitHubAccountsModel c5Pages 0 3 = some ["u1".data] ∧
    (match c5Pages 2 with | .ok profs => profs.length | .error _ => 0) = 1 ∧
    searchUpworkProfilesModel c5Pages 3 ≠ [] := by
  refine ⟨by decide, by decide, by decide⟩

/-- C5 amended: the crawl terminates exactly when a page yields zero
usernames (zero profile links, or profile links none of which produce a
username) or the page ceiling is reached.  In particular a crawl whose
page 2 yields zero usernames stops after page 2 and returns the
deduplicated usernames of page 1, and a fetch failure for an entire page
behaves identically to a page of zero results. -/
theorem c5_amended :
    (∀ pages : Nat → Except Unit (List (List (List Char))),
      searchUpworkProfilesModel pages 1 ≠ [] →
      searchUpworkProfilesModel pages 2 = [] →
      findGitHubAccountsModel pages 0 2 =
        some ((searchUpworkProfilesModel pages 1).foldl dedupInsert [])) ∧
    (∀ (pages : Nat → Except Unit (List (List (List Char)))) (p : Nat) (e : Unit)
        (mp fuel page : Nat) (acc : List (List Char)),
      fgLoop (updPage pages p (.error e)) mp fuel page acc =
        fgLoop (updPage pages p (.ok [])) mp fuel page acc) := by
  constructor
  · intro pages h1 h2
    have hne : (searchUpworkProfilesModel pages 1).isEmpty = false := by
      simpa [List.isEmpty_iff] using h1
    simp only [findGitHubAccountsModel, fgLoop, hne]
    simp [fgLoop, h2]
  · intro pages p e mp fuel page acc
    refine fgLoop_congr _ _ ?_ mp fuel page acc
    intro q
    by_cases hq : q = p
    · simp [searchUpworkProfilesModel, updPage, hq]
    · simp [searchUpworkProfilesModel, updPage, hq]

/-- Witness for C5's amended theorem at a concrete two-page crawl. -/
theorem c5_witness : findGitHubAccountsModel w5Pages 0 2 = some ["w".data] := by
  have h := c5_amended.1 w5Pages (by decide) (by decide)
  rw [h]
  decide

/-- Once the text scan of `mockBadText` reaches cursor 27 with `mockuser`
collected, every iteration re-finds the match at offset 67 and the inner
`extractGitHubUsername` call resets the shared cursor back to 27: the
state is a fixed point, so no amount of fuel finishes the loop. -/
theorem textScan_mockBad_fixed :
    ∀ fuel : Nat, textScan mockBadText fuel 27 ["mockuser".data] = none := by
  intro fuel
  induction fuel with
  | zero => rfl
  | succ fuel ih => exact ih

/-- C2 counterexample: on a profile whose surrounding text places the URL
at offset 67, `scrapeUpworkProfile`'s text-scan loop never terminates —
refuting the claim that the extraction terminates regardless of where in
the surrounding text the URLs occur. -/
theorem c2_counterexample : scrapeDiverges mockBadText mockHrefs := by
  intro fuel
  cases fuel with
  | zero => rfl
  | succ fuel =>
    have h2 : textScan mockBadText (fuel + 1) 0 [] = none := textScan_mockBad_fixed fuel
    simp only [scrapeUpworkProfileModel, h2]

/-- C2 amended: for the mock profile page — text
`Check out my GitHub: https://github.com/mockuser` (URL at offset 21,
within the first 27 characters) plus portfolio anchor
`https://github.com/mockuser/project1` and social anchor
`https://github.com/mockuser2` — the per-profile extraction terminates and
yields exactly the set `{mockuser, mockuser2}`, in insertion order; when
the text places its URL at offset ≥ 27, the text-scan loop does not
terminate (see the counterexample). -/
theorem c2_amended :
    (scrapeUpworkProfileModel mockGoodText mockHrefs 0 2).map Prod.fst
      = some ["mockuser".data, "mockuser2".data] := by
  decide

/-!
## C4 lemmas: `extractGitHubUsername` on well-formed URLs
-/

theorem matchGithubAt_http_pre (tail : List Char) :
    matchGithubAt ('h' :: 't' :: 't' :: 'p' :: ':' :: '/' :: '/' :: 'g' :: 'i' :: 't' :: 'h' :: 'u' :: 'b' :: '.' :: 'c' :: 'o' :: 'm' :: '/' :: tail)
      = (if (tail.takeWhile isUserChar).isEmpty then none
         else some (18 + (tail.takeWhile isUserChar).length, tail.takeWhile isUserChar)) := rfl

theorem matchGithubAt_https_pre (tail : List Char) :
    matchGithubAt ('h' :: 't' :: 't' :: 'p' :: 's' :: ':' :: '/' :: '/' :: 'g' :: 'i' :: 't' :: 'h' :: 'u' :: 'b' :: '.' :: 'c' :: 'o' :: 'm' :: '/' :: tail)
      = (if (tail.takeWhile isUserChar).isEmpty then none
         else some (19 + (tail.takeWhile isUserChar).length, tail.takeWhile isUserChar)) := rfl

theorem matchGithubAt_http_www_pre (tail : List Char) :
    matchGithubAt ('h' :: 't' :: 't' :: 'p' :: ':' :: '/' :: '/' :: 'w' :: 'w' :: 'w' :: '.' :: 'g' :: 'i' :: 't' :: 'h' :: 'u' :: 'b' :: '.' :: 'c' :: 'o' :: 'm' :: '/' :: tail)
      = (if (tail.takeWhile isUserChar).isEmpty then none
         else some (22 + (tail.takeWhile isUserChar).length, tail.takeWhile isUserChar)) := rfl

theorem matchGithubAt_https_www_pre (tail : List Char) :
    matchGithubAt ('h' :: 't' :: 't' :: 'p' :: 's' :: ':' :: '/' :: '/' :: 'w' :: 'w' :: 'w' :: '.' :: 'g' :: 'i' :: 't' :: 'h' :: 'u' :: 'b' :: '.' :: 'c' :: 'o' :: 'm' :: '/' :: tail)
      = (if (tail.takeWhile isUserChar).isEmpty then none
         else some (23 + (tail.takeWhile isUserChar).length, tail.takeWhile isUserChar)) := rfl

theorem stripLit_suffix :
    ∀ (lit : List (Char × Char)) (s r : List Char), stripLit lit s = some r → r <:+ s := by
  intro lit
  induction lit with
  | nil =>
    intro s r h
    simp only [stripLit, Option.some_inj] at h
    subst h
    exact List.suffix_rfl
  | cons p lit ih =>
    intro s r h
    obtain ⟨lo, up⟩ := p
    cases s with
    | nil => exact absurd h (by simp [stripLit])
    | cons c s' =>
      simp only [stripLit] at h
      split at h
      · exact (ih s' r h).trans (List.suffix_cons c s')
      · exact absurd h (by simp)

theorem sOpt_suffix (r : List Char) : (sOpt r).2 <:+ r := by
  cases r with
  | nil => exact List.suffix_rfl
  | cons c rest =>
    simp only [sOpt]
    split
    · exact List.suffix_cons c rest
    · exact List.suffix_rfl

/-- Consuming the `://` literal certifies a colon at the head. -/
theorem colonSlash_mem (t r : List Char) (h : stripLit colonSlashLit t = some r) :
    ':' ∈ t := by
  cases t with
  | nil => exact absurd h (by simp [stripLit, colonSlashLit])
  | cons c t' =>
    simp only [colonSlashLit, stripLit] at h
    split at h
    · rename_i hc
      simp only [Bool.or_self, decide_eq_true_eq] at hc
      subst hc
      exact List.mem_cons_self _ _
    · exact absurd h (by simp)

/-- Any successful `githubUrlRegex` match contains a colon. -/
theorem matchGithubAt_colon (s : List Char) (x : Nat × List Char)
    (h : matchGithubAt s = some x) : ':' ∈ s := by
  simp only [matchGithubAt] at h
  split at h
  · exact absurd h (by simp)
  · rename_i r1 h1
    split at h
    · exact absurd h (by simp)
    · rename_i r3 h3
      have h1s : r1 <:+ s := stripLit_suffix _ _ _ h1
      have h2s : (sOpt r1).2 <:+ r1 := sOpt_suffix r1
      exact h1s.subset (h2s.subset (colonSlash_mem _ _ h3))

theorem scanGithub_colon :
    ∀ (s : List Char) (p : Nat) (x : Nat × Nat × List Char),
      scanGithub s p = some x → ':' ∈ s := by
  intro s
  induction s with
  | nil => intro p x h; exact absurd h (by simp [scanGithub])
  | cons c rest ih =>
    intro p x h
    simp only [scanGithub] at h
    split at h
    · rename_i len u hm
      exact matchGithubAt_colon _ _ hm
    · exact List.mem_cons_of_mem c (ih (p + 1) x h)

theorem scanGithub_none :
    ∀ (s : List Char), (∀ i, matchGithubAt (s.drop i) = none) →
      ∀ p, scanGithub s p = none := by
  intro s
  induction s with
  | nil => intro _ p; rfl
  | cons c rest ih =>
    intro h p
    have h0 := h 0
    simp only [List.drop_zero] at h0
    simp only [scanGithub, h0]
    exact ih (fun i => by simpa using h (i + 1)) (p + 1)

/-- When the head of the input already matches, `extractGitHubUsername`
returns the capture. -/
theorem extract_head_user (c : Char) (rest : List Char) (len : Nat) (user : List Char)
    (h : matchGithubAt (c :: rest) = some (len, user)) (hu : user ≠ []) (st : Nat) :
    (extractGitHubUsername (some (c :: rest)) st).1 = some user := by
  have hie : user.isEmpty = false := by simp [List.isEmpty_iff, hu]
  simp [extractGitHubUsername, execGithub, scanGithub, h, hie]

/-- C4: for every URL of the shape
`http[s]://[www.]github.com/<user>[<non-username-char…>]` (usernames over
`[A-Za-z0-9_-]+`), `extractGitHubUsername` returns `<user>`; for
`github.com/<user>` lacking a scheme it returns null; for absent or empty
input it returns null leaving all else unchanged; and for any string in
which the pattern matches at no position it returns null. -/
theorem c4_extract_username :
    (∀ (sec www : Bool) (user trail : List Char) (st : Nat),
      user ≠ [] → user.all isUserChar = true → trailOk trail = true →
      (extractGitHubUsername (some (urlOf sec www user trail)) st).1 = some user) ∧
    (∀ (user : List Char) (st : Nat), user.all isUserChar = true →
      (extractGitHubUsername (some ("github.com/".data ++ user)) st).1 = none) ∧
    (∀ st : Nat, extractGitHubUsername none st = (none, st)) ∧
    (∀ st : Nat, extractGitHubUsername (some []) st = (none, st)) ∧
    (∀ (s : List Char) (st : Nat), (∀ i, matchGithubAt (s.drop i) = none) →
      (extractGitHubUsername (some s) st).1 = none) := by
  refine ⟨?_, ?_, fun _ => rfl, fun _ => rfl, ?_⟩
  · intro sec www user trail st h1 h2 h3
    have htw : (user ++ trail).takeWhile isUserChar = user := by
      rw [takeWhile_append_all isUserChar user trail h2]
      cases trail with
      | nil => simp
      | cons c cs =>
        have hc : isUserChar c = false := by
          simpa [trailOk] using h3
        simp [List.takeWhile_cons, hc]
    have hie : user.isEmpty = false := by simp [List.isEmpty_iff, h1]
    cases sec <;> cases www
    · have h0 := matchGithubAt_http_pre (user ++ trail)
      rw [htw, hie] at h0
      simp only [Bool.false_eq_true, if_false] at h0
      exact extract_head_user _ _ _ _ h0 h1 st
    · have h0 := matchGithubAt_http_www_pre (user ++ trail)
      rw [htw, hie] at h0
      simp only [Bool.false_eq_true, if_false] at h0
      exact extract_head_user _ _ _ _ h0 h1 st
    · have h0 := matchGithubAt_https_pre (user ++ trail)
      rw [htw, hie] at h0
      simp only [Bool.false_eq_true, if_false] at h0
      exact extract_head_user _ _ _ _ h0 h1 st
    · have h0 := matchGithubAt_https_www_pre (user ++ trail)
      rw [htw, hie] at h0
      simp only [Bool.false_eq_true, if_false] at h0
      exact extract_head_user _ _ _ _ h0 h1 st
  · intro user st hall
    have hnc : ':' ∉ ("github.com/".data ++ user) := by
      intro hmem
      rcases List.mem_append.mp hmem with h | h
      · exact absurd h (by decide)
      · exact absurd (List.all_eq_true.mp hall _ h) (by decide)
    have hscan : scanGithub ("github.com/".data ++ user) 0 = none := by
      cases hs : scanGithub ("github.com/".data ++ user) 0 with
      | none => rfl
      | some x => exact absurd (scanGithub_colon _ _ _ hs) hnc
    have hne : ("github.com/".data ++ user) ≠ [] := by simp
    have hscan2 : scanGithub ('g' :: 'i' :: 't' :: 'h' :: 'u' :: 'b' :: '.' :: 'c' :: 'o' :: 'm' :: '/' :: user) 0 = none :=
      hscan
    simp [extractGitHubUsername, List.isEmpty_iff, hne, execGithub, hscan2]
  · intro s st h
    cases s with
    | nil => rfl
    | cons c rest =>
      have hscan : scanGithub (c :: rest) 0 = none := scanGithub_none _ h 0
      simp [extractGitHubUsername, execGithub, hscan]

/-- Witness for C4 at concrete inputs. -/
theorem c4_witness :
    (extractGitHubUsername (some (urlOf true false "johndoe".data [])) 5).1
        = some "johndoe".data ∧
    (extractGitHubUsername (some ("github.com/".data ++ "janedoe".data)) 0).1 = none :=
  ⟨c4_extract_username.1 true false "johndoe".data [] 5 (by decide) (by decide) (by decide),
   c4_extract_username.2.1 "janedoe".data 0 (by decide)⟩

/-!
## C3 lemmas: soundness and completeness of `extractEmails`
-/

theorem drop_head_of_get? (l : List Char) (n : Nat) (c : Char) (h : l.get? n = some c) :
    l.drop n = c :: l.drop (n + 1) := by
  obtain ⟨hlt, hget⟩ := List.get?_eq_some.mp h
  have hg : l[n] = c := by simpa using hget
  rw [List.drop_eq_getElem_cons hlt, hg]

theorem letter_isDomainChar (c : Char) (h : isAsciiLetter c = true) :
    isDomainChar c = true := by
  simp [isDomainChar, h]

theorem goDot_some_spec (dom : List Char) :
    ∀ (n k : Nat), goDot dom n = some k → 1 ≤ k ∧ okDotAt dom k = true := by
  intro n
  induction n with
  | zero => intro k h; exact absurd h (by simp [goDot])
  | succ n ih =>
    intro k h
    simp only [goDot] at h
    split at h
    · rename_i hok
      rw [Option.some_inj] at h
      subst h
      exact ⟨by omega, hok⟩
    · exact ih k h

theorem goDot_none_all (dom : List Char) :
    ∀ n : Nat, goDot dom n = none →
      ∀ k, 1 ≤ k → k ≤ n → okDotAt dom k = false := by
  intro n
  induction n with
  | zero => intro _ k h1 h2; omega
  | succ n ih =>
    intro h k h1 h2
    simp only [goDot] at h
    split at h
    · exact absurd h (by simp)
    · rename_i hok
      by_cases hk : k = n + 1
      · subst hk; exact Bool.eq_false_iff.mpr hok
      · exact ih h k h1 (by omega)

theorem okDotAt_spec (dom : List Char) (k : Nat) (h : okDotAt dom k = true) :
    dom.get? k = some '.' ∧
    (∃ c1, dom.get? (k + 1) = some c1 ∧ isAsciiLetter c1 = true) ∧
    (∃ c2, dom.get? (k + 2) = some c2 ∧ isAsciiLetter c2 = true) := by
  simp only [okDotAt, Bool.and_eq_true, decide_eq_true_eq] at h
  obtain ⟨⟨h1, h2⟩, h3⟩ := h
  refine ⟨h1, ?_, ?_⟩
  · cases hg : dom.get? (k + 1) with
    | none =>
      rw [hg] at h2
      exact absurd (h2 : false = true) (by simp)
    | some c1 =>
      rw [hg] at h2
      exact ⟨c1, rfl, (h2 : isAsciiLetter c1 = true)⟩
  · cases hg : dom.get? (k + 2) with
    | none =>
      rw [hg] at h3
      exact absurd (h3 : false = true) (by simp)
    | some c2 =>
      rw [hg] at h3
      exact ⟨c2, rfl, (h3 : isAsciiLetter c2 = true)⟩

/-- Soundness: every `emailRegex` match has the
`local-part@domain.tld` shape. -/
theorem matchEmailAt_shape (s m : List Char) (h : matchEmailAt s = some m) :
    EmailShape m := by
  simp only [matchEmailAt] at h
  split at h
  · exact absurd h (by simp)
  · rename_i hloc
    split at h
    · exact absurd h (by simp)
    · rename_i c rest2 hdrop
      split at h
      · rename_i hc
        split at h
        · exact absurd h (by simp)
        · rename_i k hk
          rw [Option.some_inj] at h
          subst h
          obtain ⟨hk1, hok⟩ := goDot_some_spec _ _ _ hk
          obtain ⟨hdot, ⟨c1, hg1, hl1⟩, ⟨c2, hg2, hl2⟩⟩ := okDotAt_spec _ _ hok
          have hklt : k < (rest2.takeWhile isDomainChar).length :=
            (List.get?_eq_some.mp hdot).1
          refine ⟨s.takeWhile isLocalChar, (rest2.takeWhile isDomainChar).take k,
            ((rest2.takeWhile isDomainChar).drop (k + 1)).takeWhile isAsciiLetter,
            rfl, ?_, ?_, ?_, ?_, ?_, ?_⟩
          · intro hnil
            rw [hnil] at hloc
            exact hloc rfl
          · exact List.all_eq_true.mpr fun x hx => List.mem_takeWhile_imp hx
          · apply List.ne_nil_of_length_pos
            simp only [List.length_take]
            omega
          · exact List.all_eq_true.mpr fun x hx =>
              List.mem_takeWhile_imp (List.take_subset _ _ hx)
          · rw [drop_head_of_get? _ _ _ hg1, drop_head_of_get? _ _ _ hg2]
            simp [List.takeWhile_cons, hl1, hl2]
          · exact List.all_eq_true.mpr fun x hx => List.mem_takeWhile_imp hx
      · exact absurd h (by simp)

theorem infix_of_pre {l m : List Char} (h : l <+: m) : l <:+: m :=
  List.IsPrefix.isInfix h

theorem infix_of_suf {l m : List Char} (h : l <:+ m) : l <:+: m :=
  List.IsSuffix.isInfix h

theorem prefix_append_left (Z X Y : List Char) (h : X <+: Y) : Z ++ X <+: Z ++ Y := by
  obtain ⟨t, ht⟩ := h
  exact ⟨t, by rw [List.append_assoc, ht]⟩

theorem prefix_cons_cons (a : Char) (X Y : List Char) (h : X <+: Y) :
    a :: X <+: a :: Y := by
  obtain ⟨t, ht⟩ := h
  exact ⟨t, by rw [List.cons_append, ht]⟩

/-- Unmodified: every `emailRegex` match is a prefix of the text at its
match position. -/
theorem matchEmailAt_front (s m : List Char) (h : matchEmailAt s = some m) :
    m <+: s := by
  simp only [matchEmailAt] at h
  split at h
  · exact absurd h (by simp)
  · split at h
    · exact absurd h (by simp)
    · rename_i c rest2 hdrop
      split at h
      · rename_i hc
        split at h
        · exact absurd h (by simp)
        · rename_i k hk
          rw [Option.some_inj] at h
          subst h
          subst hc
          obtain ⟨hk1, hok⟩ := goDot_some_spec _ _ _ hk
          obtain ⟨hdot, _, _⟩ := okDotAt_spec _ _ hok
          obtain ⟨t, ht⟩ := List.takeWhile_prefix (l := s) isLocalChar
          have hts : t = s.drop (s.takeWhile isLocalChar).length := by
            nth_rewrite 2 [← ht]
            rw [List.drop_left]
          rw [hdrop] at hts
          rw [hts] at ht
          have hdom : (rest2.takeWhile isDomainChar).take k ++
              '.' :: (rest2.takeWhile isDomainChar).drop (k + 1)
              = rest2.takeWhile isDomainChar := by
            rw [← drop_head_of_get? _ _ _ hdot]
            exact List.take_append_drop k _
          have hstep2 : (rest2.takeWhile isDomainChar).take k ++
              '.' :: ((rest2.takeWhile isDomainChar).drop (k + 1)).takeWhile isAsciiLetter
              <+: rest2.takeWhile isDomainChar := by
            have hstep1 := prefix_append_left ((rest2.takeWhile isDomainChar).take k) _ _
              (prefix_cons_cons '.' _ _
                ( List.takeWhile_prefix (l := (rest2.takeWhile isDomainChar).drop (k + 1))
                  isAsciiLetter))
            rw [hdom] at hstep1
            exact hstep1
          have hstep3 := hstep2.trans ( List.takeWhile_prefix (l := rest2) isDomainChar)
          have hstep5 := prefix_append_left (s.takeWhile isLocalChar) _ _
            (prefix_cons_cons '@' _ _ hstep3)
          rw [ht] at hstep5
          exact hstep5
      · exact absurd h (by simp)

/-- Every element the scan emits is a shaped substring of the scanned
suffix. -/
theorem scanEmails_sound :
    ∀ (fuel : Nat) (s : List Char) (pos q : Nat) (m : List Char),
      (q, m) ∈ scanEmails fuel s pos → EmailShape m ∧ m <:+: s := by
  intro fuel
  induction fuel with
  | zero => intro s pos q m h; exact absurd h (by simp [scanEmails])
  | succ fuel ih =>
    intro s pos q m h
    cases s with
    | nil => exact absurd h (by simp [scanEmails])
    | cons c rest =>
      simp only [scanEmails] at h
      split at h
      · rename_i m0 hm0
        rcases List.mem_cons.mp h with h1 | h1
        · obtain ⟨rfl, rfl⟩ := Prod.mk.injEq .. ▸ h1
          exact ⟨matchEmailAt_shape _ _ hm0, infix_of_pre (matchEmailAt_front _ _ hm0)⟩
        · have hrec := ih _ _ _ _ h1
          exact ⟨hrec.1, hrec.2.trans (infix_of_suf (List.drop_suffix _ _))⟩
      · have hrec := ih _ _ _ _ h
        exact ⟨hrec.1, hrec.2.trans (infix_of_suf (List.suffix_cons c rest))⟩

/-- Every element the scan emits starts at or after the scan position. -/
theorem scanEmails_pos_le :
    ∀ (fuel : Nat) (s : List Char) (pos q : Nat) (m : List Char),
      (q, m) ∈ scanEmails fuel s pos → pos ≤ q := by
  intro fuel
  induction fuel with
  | zero => intro s pos q m h; exact absurd h (by simp [scanEmails])
  | succ fuel ih =>
    intro s pos q m h
    cases s with
    | nil => exact absurd h (by simp [scanEmails])
    | cons c rest =>
      simp only [scanEmails] at h
      split at h
      · rename_i m0 hm0
        rcases List.mem_cons.mp h with h1 | h1
        · obtain ⟨rfl, rfl⟩ := Prod.mk.injEq .. ▸ h1
          exact le_rfl
        · have := ih _ _ _ _ h1
          omega
      · have := ih _ _ _ _ h
        omega

/-- The matches are emitted in order of appearance and never overlap. -/
theorem scanEmails_pairwise :
    ∀ (fuel : Nat) (s : List Char) (pos : Nat),
      List.Pairwise (fun a b => a.1 + a.2.length ≤ b.1) (scanEmails fuel s pos) := by
  intro fuel
  induction fuel with
  | zero => intro s pos; simp [scanEmails]
  | succ fuel ih =>
    intro s pos
    cases s with
    | nil => simp [scanEmails]
    | cons c rest =>
      simp only [scanEmails]
      split
      · refine List.Pairwise.cons ?_ (ih _ _)
        intro b hb
        obtain ⟨q, mb⟩ := b
        exact scanEmails_pos_le _ _ _ _ _ hb
      · exact ih _ _

theorem scanEmails_none_all :
    ∀ (fuel : Nat) (s : List Char) (pos : Nat),
      (∀ i, matchEmailAt (s.drop i) = none) → scanEmails fuel s pos = [] := by
  intro fuel
  induction fuel with
  | zero => intro s pos _; rfl
  | succ fuel ih =>
    intro s pos h
    cases s with
    | nil => rfl
    | cons c rest =>
      have h0 := h 0
      simp only [List.drop_zero] at h0
      simp only [scanEmails, h0]
      exact ih rest (pos + 1) (fun i => by simpa using h (i + 1))

theorem scanEmails_ne_nil :
    ∀ (fuel : Nat) (s : List Char) (pos i : Nat),
      s.length ≤ fuel → matchEmailAt (s.drop i) ≠ none →
      scanEmails fuel s pos ≠ [] := by
  intro fuel
  induction fuel with
  | zero =>
    intro s pos i hf hm
    have hs : s = [] := by
      cases s with
      | nil => rfl
      | cons c rest => simp at hf
    subst hs
    exact absurd (show matchEmailAt (List.drop i ([] : List Char)) = none by
      simp [List.drop_nil, matchEmailAt]) hm
  | succ fuel ih =>
    intro s pos i hf hm
    cases s with
    | nil =>
      exact absurd (show matchEmailAt (List.drop i ([] : List Char)) = none by
        simp [List.drop_nil, matchEmailAt]) hm
    | cons c rest =>
      cases hm0 : matchEmailAt (c :: rest) with
      | some m0 => simp [scanEmails, hm0]
      | none =>
        cases i with
        | zero => exact absurd hm0 (by simpa using hm)
        | succ i' =>
          simp only [scanEmails, hm0]
          exact ih rest (pos + 1) i' (by simpa using hf) (by simpa using hm)

/-- Completeness: wherever a shaped email occurs inside the text, the
pattern matches at some position. -/
theorem emailShape_infix_match (text m : List Char) (hm : EmailShape m)
    (hi : m <:+: text) : ∃ i, matchEmailAt (text.drop i) ≠ none := by
  obtain ⟨l, d, t, rfl, hl, hla, hd, hda, ht2, hta⟩ := hm
  obtain ⟨u, v, huv⟩ := hi
  obtain ⟨l', a, rfl⟩ : ∃ l' a, l = l' ++ [a] := by
    rcases List.eq_nil_or_concat l with h | ⟨L, b, hL⟩
    · exact absurd h hl
    · exact ⟨L, b, by simpa [List.concat_eq_append] using hL⟩
  refine ⟨(u ++ l').length, ?_⟩
  have hdrop : text.drop (u ++ l').length = a :: '@' :: ((d ++ '.' :: t) ++ v) := by
    rw [← huv]
    have hre : u ++ ((l' ++ [a]) ++ '@' :: (d ++ '.' :: t)) ++ v
        = (u ++ l') ++ (a :: '@' :: ((d ++ '.' :: t) ++ v)) := by
      simp [List.append_assoc]
    rw [hre, List.drop_left]
  rw [hdrop]
  have ha : isLocalChar a = true := List.all_eq_true.mp hla a (by simp)
  have hloc : (a :: '@' :: ((d ++ '.' :: t) ++ v)).takeWhile isLocalChar = [a] := by
    have hat : isLocalChar '@' = false := by decide
    simp [List.takeWhile_cons, ha, hat]
  have htd : t.all isDomainChar = true := List.all_eq_true.mpr fun c hc =>
    letter_isDomainChar c (List.all_eq_true.mp hta c hc)
  have hdall : (d ++ '.' :: t).all isDomainChar = true := by
    simp [List.all_append, List.all_cons, hda, htd,
      show isDomainChar '.' = true from by decide]
  have hdomtw : ((d ++ '.' :: t) ++ v).takeWhile isDomainChar
      = d ++ '.' :: (t ++ v.takeWhile isDomainChar) := by
    rw [takeWhile_append_all isDomainChar _ _ hdall]
    simp [List.append_assoc]
  obtain ⟨t0, t1, t'', rfl⟩ : ∃ t0 t1 t'', t = t0 :: t1 :: t'' := by
    cases t with
    | nil => simp at ht2
    | cons t0 tr =>
      cases tr with
      | nil => simp at ht2
      | cons t1 t'' => exact ⟨t0, t1, t'', rfl⟩
  have ht0 : isAsciiLetter t0 = true := List.all_eq_true.mp hta t0 (by simp)
  have ht1 : isAsciiLetter t1 = true := List.all_eq_true.mp hta t1 (by simp)
  have hget0 : (((d ++ '.' :: (t0 :: t1 :: t'')) ++ v).takeWhile isDomainChar)[d.length]?
      = some '.' := by
    rw [hdomtw, List.getElem?_append_right le_rfl]
    simp
  have hget1 : (((d ++ '.' :: (t0 :: t1 :: t'')) ++ v).takeWhile
      isDomainChar)[d.length + 1]? = some t0 := by
    rw [hdomtw, List.getElem?_append_right (by omega)]
    have hsub : d.length + 1 - d.length = 1 := by omega
    rw [hsub]
    simp
  have hget2 : (((d ++ '.' :: (t0 :: t1 :: t'')) ++ v).takeWhile
      isDomainChar)[d.length + 2]? = some t1 := by
    rw [hdomtw, List.getElem?_append_right (by omega)]
    have hsub : d.length + 2 - d.length = 2 := by omega
    rw [hsub]
    simp
  have hok : okDotAt (((d ++ '.' :: (t0 :: t1 :: t'')) ++ v).takeWhile isDomainChar)
      d.length = true := by
    simp only [okDotAt, List.get?_eq_getElem?, hget0, hget1, hget2]
    simp [ht0, ht1]
  have hdlen : 1 ≤ d.length := List.length_pos.mpr hd
  have hklen : d.length ≤
      (((d ++ '.' :: (t0 :: t1 :: t'')) ++ v).takeWhile isDomainChar).length - 3 := by
    rw [hdomtw]
    simp only [List.length_append, List.length_cons]
    omega
  have hfind : findDot (((d ++ '.' :: (t0 :: t1 :: t'')) ++ v).takeWhile isDomainChar)
      ≠ none := by
    intro hnone
    have hfalse := goDot_none_all _ _ hnone d.length hdlen hklen
    rw [hok] at hfalse
    exact absurd hfalse (by simp)
  intro hnone
  simp only [matchEmailAt, hloc] at hnone
  cases hfd : findDot (((d ++ '.' :: (t0 :: t1 :: t'')) ++ v).takeWhile isDomainChar) with
  | none => exact hfind hfd
  | some k =>
    rw [List.length_singleton] at hnone
    simp only [List.drop_succ_cons, List.drop_zero] at hnone
    rw [hfd] at hnone
    simp at hnone

/-- C3: `extractEmails` returns exactly the non-overlapping
`local-part@domain.tld`-shaped substrings, unmodified and in order of
appearance: every returned element is a shaped substring of the input; the
emitted (position, match) pairs are ordered and non-overlapping; the result
is empty exactly when no shaped substring exists (and the function is
total, so it never fails); and `a@b@c` yields nothing. -/
theorem c3_extract_emails :
    (∀ text m : List Char, m ∈ extractEmails text → EmailShape m ∧ m <:+: text) ∧
    (∀ text : List Char,
      List.Pairwise (fun a b => a.1 + a.2.length ≤ b.1)
        (scanEmails text.length text 0)) ∧
    (∀ text : List Char, (∀ m, EmailShape m → ¬ m <:+: text) →
      extractEmails text = []) ∧
    (∀ text m : List Char, EmailShape m → m <:+: text → extractEmails text ≠ []) ∧
    extractEmails "a@b@c".data = [] ∧
    extractEmails "Reach me at john.doe@example.com today".data
      = ["john.doe@example.com".data] := by
  refine ⟨?_, ?_, ?_, ?_, by decide, by decide⟩
  · intro text m hm
    simp only [extractEmails, List.mem_map] at hm
    obtain ⟨⟨q, m'⟩, hmem, rfl⟩ := hm
    exact scanEmails_sound _ _ _ _ _ hmem
  · intro text
    exact scanEmails_pairwise _ _ _
  · intro text h
    unfold extractEmails
    rw [scanEmails_none_all _ _ _ ?_]
    · rfl
    · intro i
      cases hm : matchEmailAt (text.drop i) with
      | none => rfl
      | some m =>
        have hshape := matchEmailAt_shape _ _ hm
        have hinf : m <:+: text :=
          (infix_of_pre (matchEmailAt_front _ _ hm)).trans (infix_of_suf (List.drop_suffix i text))
        exact absurd hinf (h m hshape)
  · intro text m hsh hinf
    obtain ⟨i, hi⟩ := emailShape_infix_match text m hsh hinf
    intro hempty
    unfold extractEmails at hempty
    rw [List.map_eq_nil_iff] at hempty
    exact scanEmails_ne_nil _ _ 0 i le_rfl hi hempty

/-- Witness for C3 at a concrete text. -/
theorem c3_witness :
    EmailShape "x@y.zz".data ∧ "x@y.zz".data <:+: "hi x@y.zz!".data :=
  c3_extract_emails.1 "hi x@y.zz!".data "x@y.zz".data (by decide)
